import Mathlib

/-!
# Verification of the Data-Structure-Visualizer computational engine

This file gives a shallow embedding in Lean of the C++ engine in `src/data.cpp`
(adjacency-matrix `Graph` with BFS/DFS/Dijkstra/Prim, the 1-indexed lazy-deletion
`MinHeap`, and the `AVL` tree), and proves the specified properties about it.

Modelling conventions:
* C++ `int` is modelled as `Int`; all arithmetic performed by the embedded code on
  the inputs considered here stays far inside the 32-bit range, so no wrap-around
  modelling is needed.
* Arrays indexed `0..n-1` are modelled as total functions `Nat → _` (cells at or
  beyond `n` are irrelevant and initialised to the same default the code writes).
* The 1-indexed heap array of `MinHeap` is modelled as a `List PQNode` whose
  element at list position `i - 1` is the C++ array slot `i`; `size` is the list
  length.
* The linked-list `Queue` (resp. `Stack`) of the source is modelled as a
  `List Nat` with `enqueue` = append at the rear and `Front`/`dequeue` at the
  head (resp. `push`/`pop` = cons/tail), which is exactly the FIFO/LIFO
  behaviour of the linked-list code.
* `while` loops are modelled by structural recursion on an explicit fuel
  argument; the fuel supplied at each call site provably dominates the loop
  variant of the corresponding C++ loop, so the embedded function runs the loop
  to completion exactly like the source.
* The functions of the source return serialized strings; the embedding returns
  the corresponding sequences (`List Nat` of emitted vertices, `List Int` of
  distances, list of `(parent, child, weight)` MST records).  The serialization
  layer (`intToString` and bracket joining) is a bijective rendering of those
  sequences and carries no algorithmic content relevant to the claims.
-/

set_option maxHeartbeats 1000000

/-! ## Graph data model (src/data.cpp lines 516-538) -/

structure Graph where
  n : Nat
  adj : Nat → Nat → Int
  directed : Bool

namespace Graph

/-- Embedding of `Graph::addEdge` (lines 541-548): bounds-checked write of
`weight[u][v] = w`, followed by the mirror write `weight[v][u] = w` when
undirected and `u ≠ v`.  The two sequential stores are rendered as one matrix
with last-writer-wins nesting (the mirror store is tested first since it
happens second; the two target cells are distinct because the mirror requires
`u ≠ v`). -/
def addEdge (g : Graph) (u v w : Int) : Graph :=
  if 0 ≤ u ∧ u < (g.n : Int) ∧ 0 ≤ v ∧ v < (g.n : Int) then
    ⟨g.n,
      fun i j =>
        if g.directed = false ∧ u.toNat ≠ v.toNat ∧ i = v.toNat ∧ j = u.toNat then w
        else if i = u.toNat ∧ j = v.toNat then w
        else g.adj i j,
      g.directed⟩
  else g

/-- Embedding of `Graph::removeEdge` (lines 550-557), rendered like
`addEdge` (here the mirror store is unconditional on `u ≠ v`, but both stores
write the same value `0`, so the nesting is immaterial). -/
def removeEdge (g : Graph) (u v : Int) : Graph :=
  if 0 ≤ u ∧ u < (g.n : Int) ∧ 0 ≤ v ∧ v < (g.n : Int) then
    ⟨g.n,
      fun i j =>
        if g.directed = false ∧ i = v.toNat ∧ j = u.toNat then 0
        else if i = u.toNat ∧ j = v.toNat then 0
        else g.adj i j,
      g.directed⟩
  else g

/-- Merged weight chosen by the symmetrization loop for an unordered pair:
`weight[i][j]` wins if nonzero, otherwise `weight[j][i]` is used. -/
def mergeVal (m : Nat → Nat → Int) (a b : Nat) : Int :=
  if m a b ≠ 0 then m a b else m b a

/-- One iteration of the symmetrization double loop of `Graph::setDirected`
(lines 562-570), acting on the cell pair `(p.1, p.2)`, `(p.2, p.1)`; the
assigned `weight` is `mergeVal m p.1 p.2`, exactly the expression of
line 565. -/
def symStep (m : Nat → Nat → Int) (p : Nat × Nat) : Nat → Nat → Int :=
  if m p.1 p.2 ≠ 0 ∨ m p.2 p.1 ≠ 0 then
    fun a b =>
      if (a = p.1 ∧ b = p.2) ∨ (a = p.2 ∧ b = p.1) then mergeVal m p.1 p.2 else m a b
  else m

/-- The index pairs `(i, j)` with `i < j < n` visited by the double loop
`for i in [0,n), for j in [i+1,n)` of `Graph::setDirected`, in visit order. -/
def pairsUpper (n : Nat) : List (Nat × Nat) :=
  (List.range n).flatMap fun i => (List.range' (i + 1) (n - (i + 1))).map fun j => (i, j)

/-- Embedding of `Graph::setDirected` (lines 559-572). -/
def setDirected (g : Graph) (directed : Bool) : Graph :=
  if directed then ⟨g.n, g.adj, true⟩
  else ⟨g.n, (pairsUpper g.n).foldl symStep g.adj, false⟩

/-- Embedding of `Graph::getIsDirected` (lines 574-576). -/
def getIsDirected (g : Graph) : Bool := g.directed

/-- Embedding of `Graph::clear` (lines 794-800). -/
def clear (g : Graph) : Graph := ⟨g.n, fun _ _ => 0, g.directed⟩

/-- Embedding of `Graph::getVertexCount` (lines 802-804). -/
def getVertexCount (g : Graph) : Nat := g.n

/-- One step of the inner column loop of `Graph::removeVertex`
(lines 590-600): skip the removed vertex, copy a nonzero cell via `addEdge`
on the new graph, advance the compacted column index. -/
def rvInnerStep (g : Graph) (i newI w : Nat) (st : Graph × Nat) (j : Nat) : Graph × Nat :=
  if j = w then st
  else
    ((if g.adj i j ≠ 0 then st.1.addEdge (newI : Int) (st.2 : Int) (g.adj i j) else st.1),
      st.2 + 1)

/-- Inner loop of `Graph::removeVertex` for a fixed source row `i` (compacted
to `newI`), scanning all columns. -/
def rvInner (g : Graph) (w i newI : Nat) (acc : Graph) : Graph :=
  ((List.range g.n).foldl (rvInnerStep g i newI w) (acc, 0)).1

/-- One step of the outer row loop of `Graph::removeVertex` (lines 584-602). -/
def rvOuterStep (g : Graph) (w : Nat) (st : Graph × Nat) (i : Nat) : Graph × Nat :=
  if i = w then st else (rvInner g w i st.2 st.1, st.2 + 1)

/-- Outer loop of `Graph::removeVertex`, starting from the freshly allocated
zero matrix `Graph(n - 1, isDirected)`. -/
def rvOuter (g : Graph) (w : Nat) : Graph :=
  ((List.range g.n).foldl (rvOuterStep g w)
    ((⟨g.n - 1, fun _ _ => 0, g.directed⟩ : Graph), 0)).1

/-- Embedding of `Graph::removeVertex` (lines 578-605).  The C++ method mutates
nothing reachable from `this` (it only reads `adjMatrix` and writes into the
newly allocated graph), so the embedding returns the pair
(receiver after the call, returned graph); in the out-of-range case the source
returns `this` itself. -/
def removeVertex (g : Graph) (vertex : Int) : Graph × Graph :=
  if vertex < 0 ∨ (g.n : Int) ≤ vertex then (g, g)
  else (g, rvOuter g vertex.toNat)

/-- Index of the old graph corresponding to index `x` of the graph returned by
`removeVertex w`: the surviving vertices are compacted in order, so new index
`x` stands for old index `x` when `x < w` and for `x + 1` otherwise. -/
def shiftUp (w x : Nat) : Nat := if x < w then x else x + 1

/-- Value of the compacted-index counters of `removeVertex` after the loop has
passed positions `0, ..., k - 1`: the number of those positions different from
the removed vertex `w`. -/
def compactAt (w k : Nat) : Nat := if k ≤ w then k else k - 1

/-- Loop invariant of the outer `removeVertex` loop after the rows `< k` have
been processed: a cell of the new graph holds its final value as soon as its
source row has been processed (or, for an undirected graph, the mirrored
source row of its transpose cell has been), and `0` otherwise. -/
def rvInvO (g : Graph) (w k : Nat) (acc : Graph) : Prop :=
  ∀ a b, a < g.n - 1 → b < g.n - 1 →
    acc.adj a b =
      if g.adj (shiftUp w a) (shiftUp w b) ≠ 0 ∧
          (shiftUp w a < k ∨ (g.directed = false ∧ a ≠ b ∧ shiftUp w b < k)) then
        g.adj (shiftUp w a) (shiftUp w b)
      else 0

/-- Loop invariant of the inner `removeVertex` loop while row `i` is being
processed and the columns `< j0` of that row have been scanned. -/
def rvInvI (g : Graph) (w i j0 : Nat) (acc : Graph) : Prop :=
  ∀ a b, a < g.n - 1 → b < g.n - 1 →
    acc.adj a b =
      if g.adj (shiftUp w a) (shiftUp w b) ≠ 0 ∧
          ((shiftUp w a < i ∨ (g.directed = false ∧ a ≠ b ∧ shiftUp w b < i)) ∨
            (shiftUp w a = i ∧ shiftUp w b < j0) ∨
            (g.directed = false ∧ a ≠ b ∧ shiftUp w b = i ∧ shiftUp w a < j0)) then
        g.adj (shiftUp w a) (shiftUp w b)
      else 0

/-- Directed edge relation realized by the traversal loops: a scanned neighbor
`b < n` of `a < n` with a nonzero matrix cell. -/
def Edge (g : Graph) (a b : Nat) : Prop := a < g.n ∧ b < g.n ∧ g.adj a b ≠ 0

/-- Reachability by following nonzero-weight directed edges. -/
def Reaches (g : Graph) (u v : Nat) : Prop := Relation.ReflTransGen g.Edge u v

end Graph

/-! ## MinHeap (src/data.cpp lines 129-199) -/

/-- Heap entry `(vertex, key)` (lines 130-133).  The vertices stored by the two
call sites are always array indices in `[0, n)`, so `vertex` is modelled as
`Nat`; the `{-1, 999999}` pop-on-empty sentinel of the source is unreachable
under the `while (!pq.empty())` guards of both call sites and is rendered here
with vertex component `0`. -/
structure PQNode where
  vertex : Nat
  key : Int
deriving DecidableEq

/-- C++ array slot `i` (1-indexed) of the heap modelled as a list. -/
def hget (l : List PQNode) (i : Nat) : PQNode := l.getD (i - 1) ⟨0, 0⟩

/-- Key at 1-indexed slot `i`. -/
def hkey (l : List PQNode) (i : Nat) : Int := (hget l i).key

/-- Swap of the 1-indexed slots `a` and `b` (MinHeap::swap, lines 141-145). -/
def hswap (l : List PQNode) (a b : Nat) : List PQNode :=
  (l.set (a - 1) (hget l b)).set (b - 1) (hget l a)

/-- Embedding of `MinHeap::heapifyUp` (lines 147-152). -/
def heapifyUp (l : List PQNode) (i : Nat) : List PQNode :=
  if 2 ≤ i ∧ hkey l i < hkey l (i / 2) then heapifyUp (hswap l i (i / 2)) (i / 2) else l
termination_by i
decreasing_by omega

/-- Index `smallest` computed by `MinHeap::heapifyDown` (lines 155-162): first
compare the left child `2 * i`, then the right child `2 * i + 1`. -/
def downTarget (l : List PQNode) (i : Nat) : Nat :=
  if 2 * i + 1 ≤ l.length ∧
      hkey l (2 * i + 1) <
        hkey l (if 2 * i ≤ l.length ∧ hkey l (2 * i) < hkey l i then 2 * i else i) then
    2 * i + 1
  else if 2 * i ≤ l.length ∧ hkey l (2 * i) < hkey l i then 2 * i else i

/-- Embedding of `MinHeap::heapifyDown` (lines 154-168). -/
def heapifyDown (l : List PQNode) (i : Nat) : List PQNode :=
  if h : downTarget l i ≠ i then heapifyDown (hswap l i (downTarget l i)) (downTarget l i) else l
termination_by l.length + 1 - i
decreasing_by
  simp only [hswap, List.length_set, downTarget] at h ⊢
  split_ifs at h ⊢ <;> omega

structure MinHeap where
  heap : List PQNode
  capacity : Nat

namespace MinHeap

/-- Embedding of `MinHeap::push` (lines 179-185): dropped silently when the
heap is full, otherwise append at slot `size + 1` and sift up. -/
def push (h : MinHeap) (vertex : Nat) (key : Int) : MinHeap :=
  if h.capacity ≤ h.heap.length then h
  else ⟨heapifyUp (h.heap ++ [⟨vertex, key⟩]) (h.heap.length + 1), h.capacity⟩

/-- Embedding of `MinHeap::pop` (lines 187-194): return slot 1, move the last
slot to the root, shrink, and sift down when nonempty. -/
def pop (h : MinHeap) : PQNode × MinHeap :=
  match h.heap with
  | [] => (⟨0, 999999⟩, h)
  | top :: _ =>
    let l' := (h.heap.set 0 (hget h.heap h.heap.length)).dropLast
    (top, ⟨if 0 < l'.length then heapifyDown l' 1 else l', h.capacity⟩)

/-- Embedding of `MinHeap::empty` (lines 196-198). -/
def isEmpty (h : MinHeap) : Bool := h.heap.length = 0

end MinHeap

/-- Number of `false` cells among indices `0..n-1` of a boolean array; loop
variant used to bound the traversal loops. -/
def countFalse (n : Nat) (f : Nat → Bool) : Nat :=
  ((List.range n).filter fun v => !f v).length

namespace Graph

/-! ## BFS (src/data.cpp lines 622-655) -/

/-- One neighbor check of the BFS scan (lines 645-648): an unvisited neighbor
with a nonzero edge is marked visited and enqueued at the rear. -/
def bfsScanStep (g : Graph) (node : Nat) (st : (Nat → Bool) × List Nat) (nb : Nat) :
    (Nat → Bool) × List Nat :=
  if g.adj node nb ≠ 0 ∧ st.1 nb = false then
    (Function.update st.1 nb true, st.2 ++ [nb])
  else st

/-- Neighbor scan of one dequeued BFS vertex (lines 644-649), in ascending
neighbor order. -/
def bfsScan (g : Graph) (node : Nat) (st : (Nat → Bool) × List Nat) :
    (Nat → Bool) × List Nat :=
  (List.range g.n).foldl (g.bfsScanStep node) st

/-- The `while (!q.empty())` loop of `Graph::bfs` (lines 636-650); each
iteration dequeues the front vertex, emits it, and scans its neighbors. -/
def bfsLoop (g : Graph) : Nat → (Nat → Bool) → List Nat → List Nat
  | 0, _, _ => []
  | fuel + 1, vis, q =>
    match q with
    | [] => []
    | node :: rest =>
      let st := g.bfsScan node (vis, rest)
      node :: bfsLoop g fuel st.1 st.2

/-- Embedding of `Graph::bfs` (lines 622-655), returning the emitted vertex
sequence.  The fuel `g.n + 1` dominates the loop variant
`queue length + number of unvisited vertices`, which starts at
`1 + (g.n - 1)` and strictly decreases every iteration. -/
def bfs (g : Graph) (start : Int) : List Nat :=
  if start < 0 ∨ (g.n : Int) ≤ start then []
  else
    bfsLoop g (g.n + 1) (Function.update (fun _ => false) start.toNat true) [start.toNat]

/-! ## DFS (src/data.cpp lines 657-692) -/

/-- One neighbor check of the DFS push sweep (lines 682-684). -/
def dfsPushStep (g : Graph) (node : Nat) (vis : Nat → Bool) (st : List Nat) (nb : Nat) :
    List Nat :=
  if g.adj node nb ≠ 0 ∧ vis nb = false then nb :: st else st

/-- Neighbor push of one newly visited DFS vertex (lines 681-685): neighbors
are scanned in descending index order and the unvisited ones with a nonzero
edge are pushed onto the stack. -/
def dfsPush (g : Graph) (node : Nat) (vis : Nat → Bool) (st : List Nat) : List Nat :=
  (List.range g.n).reverse.foldl (g.dfsPushStep node vis) st

/-- The `while (!s.empty())` loop of `Graph::dfs` (lines 670-687): pop, skip if
already visited, otherwise mark, emit, and push unvisited neighbors. -/
def dfsLoop (g : Graph) : Nat → (Nat → Bool) → List Nat → List Nat
  | 0, _, _ => []
  | fuel + 1, vis, st =>
    match st with
    | [] => []
    | node :: rest =>
      if vis node then dfsLoop g fuel vis rest
      else
        let vis' := Function.update vis node true
        node :: dfsLoop g fuel vis' (g.dfsPush node vis' rest)

/-- Embedding of `Graph::dfs` (lines 657-692), returning the emitted vertex
sequence.  The fuel dominates the loop variant
`stack length + (g.n + 1) * number of unvisited vertices`. -/
def dfs (g : Graph) (start : Int) : List Nat :=
  if start < 0 ∨ (g.n : Int) ≤ start then []
  else dfsLoop g (g.n * g.n + g.n + 1) (fun _ => false) [start.toNat]

/-! ## Dijkstra (src/data.cpp lines 694-738) -/

end Graph

/-- State of the Dijkstra loop: the `dist` array, the `visited` array and the
lazy-deletion priority queue. -/
structure DijkstraState where
  dist : Nat → Int
  visited : Nat → Bool
  pq : MinHeap

namespace Graph

/-- Relaxation sweep over the outgoing edges of the freshly finalized vertex
`u` (lines 717-725), iterating over the targets in `vs`:
`if (adjMatrix[u][v] != 0 && !visited[v])` and `dist[u] + weight < dist[v]`
then update `dist[v]` and push a fresh `(v, dist[v])` entry. -/
def dijkstraRelax (g : Graph) (u : Nat) : List Nat → DijkstraState → DijkstraState
  | [], st => st
  | v :: vs, st =>
    if g.adj u v ≠ 0 ∧ st.visited v = false ∧ st.dist u + g.adj u v < st.dist v then
      dijkstraRelax g u vs
        ⟨Function.update st.dist v (st.dist u + g.adj u v), st.visited,
          st.pq.push v (st.dist u + g.adj u v)⟩
    else dijkstraRelax g u vs st

/-- One iteration of the Dijkstra `while` loop (lines 710-726): pop the minimum
entry, skip it when its vertex is already finalized, otherwise finalize the
vertex and relax its outgoing edges. -/
def dijkstraIter (g : Graph) (st : DijkstraState) : DijkstraState :=
  let pr := st.pq.pop
  let u := pr.1.vertex
  if st.visited u then ⟨st.dist, st.visited, pr.2⟩
  else g.dijkstraRelax u (List.range g.n) ⟨st.dist, Function.update st.visited u true, pr.2⟩

/-- The `while (!pq.empty())` loop of `Graph::dijkstra`. -/
def dijkstraLoop (g : Graph) : Nat → DijkstraState → Nat → Int
  | 0, st => st.dist
  | fuel + 1, st =>
    if st.pq.isEmpty then st.dist else dijkstraLoop g fuel (g.dijkstraIter st)

/-- Embedding of `Graph::dijkstra` (lines 694-738), returning the final
distance array `dist[0], ..., dist[n-1]`.  The fuel `g.n * g.n + 1` dominates
the loop variant `heap size + g.n * number of unvisited vertices`. -/
def dijkstra (g : Graph) (start : Int) : List Int :=
  if start < 0 ∨ (g.n : Int) ≤ start then []
  else
    let s := start.toNat
    let st0 : DijkstraState :=
      ⟨Function.update (fun _ => 999999) s 0, fun _ => false,
        MinHeap.push ⟨[], g.n * g.n⟩ s 0⟩
    (List.range g.n).map (dijkstraLoop g (g.n * g.n + 1) st0)

/-! ## Prim (src/data.cpp lines 740-792) -/

end Graph

/-- State of the Prim loop: the `key`, `parent` and `inMST` arrays, the
priority queue, and the edge records emitted so far (in emission order). -/
structure PrimState where
  key : Nat → Int
  parent : Nat → Int
  inMST : Nat → Bool
  pq : MinHeap
  records : List (Nat × Nat × Int)

namespace Graph

/-- Relaxation sweep of Prim (lines 777-783): for each unfinalized neighbor
`v` of `u` with `adjMatrix[u][v] < key[v]`, update `key[v]` and `parent[v]`
and push a fresh `(v, key[v])` entry. -/
def primRelax (g : Graph) (u : Nat) : List Nat → PrimState → PrimState
  | [], st => st
  | v :: vs, st =>
    if g.adj u v ≠ 0 ∧ st.inMST v = false ∧ g.adj u v < st.key v then
      primRelax g u vs
        ⟨Function.update st.key v (g.adj u v), Function.update st.parent v (u : Int),
          st.inMST, st.pq.push v (g.adj u v), st.records⟩
    else primRelax g u vs st

/-- One iteration of the Prim `while` loop (lines 762-784): pop the minimum
entry, skip finalized vertices, otherwise finalize the vertex, emit the edge
record `(parent[u], u, adjMatrix[parent[u]][u])` when `parent[u] != -1`, and
relax the incident edges. -/
def primIter (g : Graph) (st : PrimState) : PrimState :=
  let pr := st.pq.pop
  let u := pr.1.vertex
  if st.inMST u then ⟨st.key, st.parent, st.inMST, pr.2, st.records⟩
  else
    let inMST' := Function.update st.inMST u true
    let records' :=
      if st.parent u ≠ -1 then
        st.records ++ [((st.parent u).toNat, u, g.adj (st.parent u).toNat u)]
      else st.records
    g.primRelax u (List.range g.n) ⟨st.key, st.parent, inMST', pr.2, records'⟩

/-- The `while (!pq.empty())` loop of `Graph::primMST`. -/
def primLoop (g : Graph) : Nat → PrimState → List (Nat × Nat × Int)
  | 0, st => st.records
  | fuel + 1, st =>
    if st.pq.isEmpty then st.records else primLoop g fuel (g.primIter st)

/-- Embedding of `Graph::primMST` (lines 740-792), returning the emitted edge
records `(parent, child, weight)` in emission order.  A directed graph yields
the empty record list (line 741-743). -/
def primMST (g : Graph) : List (Nat × Nat × Int) :=
  if g.directed then []
  else
    let st0 : PrimState :=
      ⟨Function.update (fun _ => 999999) 0 0, fun _ => -1, fun _ => false,
        MinHeap.push ⟨[], g.n * g.n⟩ 0 0, []⟩
    primLoop g (g.n * g.n + 1) st0

end Graph

/-! ## Walk costs and spanning edge sets (specification vocabulary for C2/C3) -/

/-- `WalkCost g u v c` holds when there is a walk from `u` to `v` along
nonzero-weight directed edges whose total weight is `c`. -/
inductive WalkCost (g : Graph) : Nat → Nat → Int → Prop
  | nil (u : Nat) : WalkCost g u u 0
  | cons {u v w : Nat} {c : Int} :
      g.Edge u v → WalkCost g v w c → WalkCost g u w (g.adj u v + c)

/-- Undirected incidence relation generated by a multiset of vertex pairs. -/
def pairRel (M : Multiset (Nat × Nat)) (a b : Nat) : Prop :=
  (a, b) ∈ M ∨ (b, a) ∈ M

/-- A multiset of vertex pairs spans `g`: every pair is a (nonzero-weight)
edge of `g` and every vertex is connected to vertex `0` through the pairs. -/
def SpansM (g : Graph) (M : Multiset (Nat × Nat)) : Prop :=
  (∀ p ∈ M, g.Edge p.1 p.2) ∧ ∀ v < g.n, Relation.ReflTransGen (pairRel M) 0 v

/-- Total weight of a multiset of vertex pairs under the matrix of `g`. -/
def weightM (g : Graph) (M : Multiset (Nat × Nat)) : Int :=
  (M.map fun p => g.adj p.1 p.2).sum

/-- The vertex pairs of a Prim record list, as a multiset. -/
def recPairs (rs : List (Nat × Nat × Int)) : Multiset (Nat × Nat) :=
  ↑(rs.map fun r => (r.1, r.2.1))

/-! ## Array accesses of the primMST initialization (src/data.cpp lines 745-757)

`Graph::primMST` allocates `key`, `parent`, `inMST` of length `n`, fills them
with a loop over `i ∈ [0, n)`, and then performs the single extra write
`key[0] = 0`.  The following definitions record, in program order, the array
writes this initialization segment performs, so that in-bounds behaviour can
be stated.  (On a directed graph the function returns before allocating.) -/

inductive ArrName
  | key
  | parent
  | inMST
deriving DecidableEq

/-- The `(array, index)` writes performed by the initialization segment of
`Graph::primMST` on an undirected graph, in program order: the fill loop
(lines 749-753) followed by `key[0] = 0` (line 755). -/
def primInitWrites (g : Graph) : List (ArrName × Nat) :=
  ((List.range g.n).flatMap fun i => [(ArrName.key, i), (ArrName.parent, i), (ArrName.inMST, i)])
    ++ [(ArrName.key, 0)]

/-- All three arrays have length `g.n`, so a write is in bounds exactly when
its index is below `g.n`. -/
def primInitInBounds (g : Graph) : Prop :=
  ∀ w ∈ primInitWrites g, w.2 < g.n

/-! ## AVL tree (src/data.cpp lines 320-514) -/

namespace AVL

/-- AVL node (lines 323-335): key, stored height, and the two children; the
null pointer is `leaf`. -/
inductive Tree
  | leaf
  | node (left : Tree) (key : Int) (height : Int) (right : Tree)
deriving DecidableEq

/-- Embedding of `AVL::height` (lines 344-346): stored height, `0` for null. -/
def height : Tree → Int
  | .leaf => 0
  | .node _ _ h _ => h

/-- Embedding of `AVL::getBalance` (lines 348-351). -/
def getBalance : Tree → Int
  | .leaf => 0
  | .node l _ _ r => height l - height r

/-- Embedding of `AVL::rightRotate` (lines 354-365).  The C++ code
unconditionally dereferences `y->left`; it is only ever called when the left
child is non-null, and the embedding returns the input unchanged on the
unreachable null pattern. -/
def rightRotate : Tree → Tree
  | .node (.node t1 xk _ t2) yk _ t3 =>
    let y := Tree.node t2 yk (1 + max (height t2) (height t3)) t3
    Tree.node t1 xk (1 + max (height t1) (height y)) y
  | t => t

/-- Embedding of `AVL::leftRotate` (lines 368-379); dual remark to
`rightRotate`. -/
def leftRotate : Tree → Tree
  | .node t1 xk _ (.node t2 yk _ t3) =>
    let x := Tree.node t1 xk (1 + max (height t1) (height t2)) t2
    Tree.node x yk (1 + max (height x) (height t3)) t3
  | t => t

/-- Key of the root node; only used on non-null trees (as in the source). -/
def rootKey : Tree → Int
  | .leaf => 0
  | .node _ k _ _ => k

/-- Rebalancing tail of the insert helper (lines 393-416): recompute the
stored height, then dispatch on the balance factor and the inserted key. -/
def insertBalance (l : Tree) (key : Int) (r : Tree) (k : Int) : Tree :=
  let t := Tree.node l key (1 + max (height l) (height r)) r
  let balance := height l - height r
  if 1 < balance ∧ k < rootKey l then rightRotate t
  else if balance < -1 ∧ rootKey r < k then leftRotate t
  else if 1 < balance ∧ rootKey l < k then
    rightRotate (Tree.node (leftRotate l) key (1 + max (height l) (height r)) r)
  else if balance < -1 ∧ k < rootKey r then
    leftRotate (Tree.node l key (1 + max (height l) (height r)) (rightRotate r))
  else t

/-- Embedding of the recursive insert helper `AVL::insert(Node*, int)`
(lines 382-417). -/
def insert : Tree → Int → Tree
  | .leaf, k => .node .leaf k 1 .leaf
  | .node l key h r, k =>
    if k < key then insertBalance (insert l k) key r k
    else if key < k then insertBalance l key (insert r k) k
    else .node l key h r

/-- Embedding of `AVL::minValueNode` (lines 420-425), returning the key of the
leftmost node; only used on non-null trees. -/
def minValueKey : Tree → Int
  | .leaf => 0
  | .node .leaf k _ _ => k
  | .node (.node ll lk lh lr) _ _ _ => minValueKey (.node ll lk lh lr)

/-- Rebalancing tail of the delete helper (lines 460-481): recompute the
stored height, then dispatch on the balance factors. -/
def removeBalance (l : Tree) (key : Int) (r : Tree) : Tree :=
  let t := Tree.node l key (1 + max (height l) (height r)) r
  let balance := height l - height r
  if 1 < balance ∧ 0 ≤ getBalance l then rightRotate t
  else if 1 < balance ∧ getBalance l < 0 then
    rightRotate (Tree.node (leftRotate l) key (1 + max (height l) (height r)) r)
  else if balance < -1 ∧ getBalance r ≤ 0 then leftRotate t
  else if balance < -1 ∧ 0 < getBalance r then
    leftRotate (Tree.node l key (1 + max (height l) (height r)) (rightRotate r))
  else t

/-- Rebalancing tail applied to the single-child replacement node: the source
runs the same height-update and balance block (lines 457-481) on the subtree
root after the splice. -/
def removeBalance' : Tree → Tree
  | .leaf => .leaf
  | .node l key _ r => removeBalance l key r

/-- Embedding of the recursive delete helper `AVL::remove(Node*, int)`
(lines 428-484).  A node with at most one child is replaced by that child
(lines 436-449: when both children are null the node is deleted, otherwise the
sole child's fields are copied over the node); a node with two children gets
the in-order successor's key and that key is removed from the right subtree
(lines 450-454). -/
def remove : Tree → Int → Tree
  | .leaf, _ => .leaf
  | .node l key h r, k =>
    if k < key then
      let l' := remove l k
      removeBalance l' key r
    else if key < k then
      let r' := remove r k
      removeBalance l key r'
    else
      match l, r with
      | .leaf, .leaf => .leaf
      | .leaf, .node rl rk rh rr => removeBalance' (Tree.node rl rk rh rr)
      | .node ll lk lh lr, .leaf => removeBalance' (Tree.node ll lk lh lr)
      | .node ll lk lh lr, .node rl rk rh rr =>
        let m := minValueKey (.node rl rk rh rr)
        let r' := remove (.node rl rk rh rr) m
        removeBalance (.node ll lk lh lr) m r'

/-- Embedding of the in-order traversal (lines 487-493), as the key list. -/
def inorder : Tree → List Int
  | .leaf => []
  | .node l k _ r => inorder l ++ k :: inorder r

/-- A caller-level operation on the AVL tree (lines 503-509). -/
inductive Op
  | ins (k : Int)
  | del (k : Int)

/-- Apply one public AVL operation to the root. -/
def applyOp (t : Tree) : Op → Tree
  | .ins k => insert t k
  | .del k => remove t k

/-- Tree resulting from a sequence of public `insert`/`remove` calls on a
freshly constructed (empty) `AVL` object (line 501). -/
def applyOps (ops : List Op) : Tree :=
  ops.foldl applyOp .leaf

/-- The keys that a sequence of operations leaves present: inserted keys
accumulate, removed keys are taken out. -/
def opsKeys (ops : List Op) : Finset Int :=
  ops.foldl
    (fun s op => match op with | .ins k => Insert.insert k s | .del k => s.erase k) ∅

/-- Real height of a tree: `0` for the null tree, `1 + max` of the children's
real heights. -/
def realHeight : Tree → Int
  | .leaf => 0
  | .node l _ _ r => 1 + max (realHeight l) (realHeight r)

/-- Every stored height field equals the real height of its subtree. -/
def HeightsOk : Tree → Prop
  | .leaf => True
  | .node l _ h r => h = 1 + max (realHeight l) (realHeight r) ∧ HeightsOk l ∧ HeightsOk r

/-- AVL balance invariant on real heights. -/
def Balanced : Tree → Prop
  | .leaf => True
  | .node l _ _ r => |realHeight l - realHeight r| ≤ 1 ∧ Balanced l ∧ Balanced r

/-- Binary-search-tree ordering invariant. -/
def BST : Tree → Prop
  | .leaf => True
  | .node l k _ r =>
    (∀ x ∈ inorder l, x < k) ∧ (∀ x ∈ inorder r, k < x) ∧ BST l ∧ BST r

/-- Well-formed AVL tree: the three invariants together. -/
def WellFormed (t : Tree) : Prop := BST t ∧ HeightsOk t ∧ Balanced t

end AVL

/-! ## Concrete instances used as witnesses and counterexamples -/

/-- The 4-vertex undirected example of the specification: edges
`(0,1,1)`, `(1,2,2)`, `(2,3,1)`, `(0,3,5)`. -/
def gDemo : Graph :=
  ⟨4,
    fun i j =>
      if (i = 0 ∧ j = 1) ∨ (i = 1 ∧ j = 0) then 1
      else if (i = 1 ∧ j = 2) ∨ (i = 2 ∧ j = 1) then 2
      else if (i = 2 ∧ j = 3) ∨ (i = 3 ∧ j = 2) then 1
      else if (i = 0 ∧ j = 3) ∨ (i = 3 ∧ j = 0) then 5
      else 0,
    false⟩

/-- Directed two-vertex graph with the single edge `0 → 1` of weight
`1000000`, a nonnegative weight exceeding the sentinel. -/
def gBigW : Graph :=
  ⟨2, fun i j => if i = 0 ∧ j = 1 then 1000000 else 0, true⟩

/-- Undirected two-vertex graph whose single edge has the positive weight
`999999`, equal to the sentinel. -/
def gSentinelW : Graph :=
  ⟨2, fun i j => if (i = 0 ∧ j = 1) ∨ (i = 1 ∧ j = 0) then 999999 else 0, false⟩

/-- A one-vertex graph with no edges. -/
def gOne : Graph := ⟨1, fun _ _ => 0, false⟩

/-- The empty (zero-vertex) undirected graph. -/
def gZero : Graph := ⟨0, fun _ _ => 0, false⟩

/-!
# Theorems
-/

/-! ## C10: out-of-range removeVertex returns the receiver -/

/-- C10: for every graph and every index `v` outside `[0, vertexCount)`,
`removeVertex(v)` returns the receiver itself, with vertex count and matrix
unchanged, rather than a newly allocated smaller graph (src/data.cpp lines
579-580 return `this` before allocating). -/
theorem C10_removeVertex_out_of_range (g : Graph) (v : Int)
    (h : v < 0 ∨ (g.n : Int) ≤ v) : g.removeVertex v = (g, g) := by
  simp only [Graph.removeVertex]
  rw [if_pos h]

/-- Witness for C10 at the concrete graph `gOne` and index `-1`. -/
theorem C10_removeVertex_out_of_range_witness :
    ((-1 : Int) < 0 ∨ (gOne.n : Int) ≤ -1) ∧ gOne.removeVertex (-1) = (gOne, gOne) :=
  ⟨by decide, C10_removeVertex_out_of_range gOne (-1) (by decide)⟩

/-! ## C6: out-of-range dijkstra -/

/-- Counterexample to C6 as stated: on the one-vertex graph with the
out-of-range start `1`, `dijkstra` returns the empty sequence, not a sequence
of length `vertexCount = 1` filled with the sentinel. -/
theorem C6_counterexample :
    ((1 : Int) < 0 ∨ (gOne.n : Int) ≤ 1) ∧
      Graph.dijkstra gOne 1 = [] ∧ gOne.n = 1 ∧
      (Graph.dijkstra gOne 1).length ≠ gOne.n := by
  refine ⟨by decide, by decide, by decide, by decide⟩

/-- C6 (amended): for every graph and every start index outside
`[0, vertexCount)`, `dijkstra(start)` returns the empty sequence
(src/data.cpp lines 695-696 return `"[]"`). -/
theorem C6_dijkstra_out_of_range (g : Graph) (start : Int)
    (h : start < 0 ∨ (g.n : Int) ≤ start) : g.dijkstra start = [] := by
  simp only [Graph.dijkstra]
  rw [if_pos h]

/-- Witness for the amended C6 at the concrete graph `gOne` and start `1`. -/
theorem C6_dijkstra_out_of_range_witness :
    ((1 : Int) < 0 ∨ (gOne.n : Int) ≤ 1) ∧ Graph.dijkstra gOne 1 = [] :=
  ⟨by decide, C6_dijkstra_out_of_range gOne 1 (by decide)⟩

/-! ## C9: primMST initialization at vertexCount = 0 -/

/-- Counterexample to C9 as stated: on the empty undirected graph the
initialization segment of `primMST` performs no write to `parent[0]` or
`inMST[0]` at all (the fill loop body never executes when `n = 0`); the only
write it performs is `key[0] = 0`. -/
theorem C9_counterexample :
    gZero.directed = false ∧ gZero.n = 0 ∧
      primInitWrites gZero = [(ArrName.key, 0)] ∧
      (ArrName.parent, 0) ∉ primInitWrites gZero ∧
      (ArrName.inMST, 0) ∉ primInitWrites gZero := by
  refine ⟨rfl, rfl, by decide, by decide, by decide⟩

/-- C9 (amended): the writes of the `primMST` initialization segment are all
in bounds exactly when `vertexCount ≥ 1` — when `vertexCount = 0` the
directedness guard is passed and the single write `key[0] = 0` indexes past
the end of a zero-length allocation (no `parent`/`inMST` write occurs, since
the fill loop body never executes) — whereas `bfs`, `dfs` and `dijkstra`
reject every start index when `vertexCount = 0`. -/
theorem C9_primMST_init_bounds (g : Graph) :
    (primInitInBounds g ↔ 1 ≤ g.n) ∧
      (g.n = 0 → ∀ start : Int, g.bfs start = [] ∧ g.dfs start = [] ∧ g.dijkstra start = []) := by
  constructor
  · constructor
    · intro h
      have := h (ArrName.key, 0) (by simp [primInitWrites])
      omega
    · intro hn w hw
      simp only [primInitWrites, List.mem_append, List.mem_flatMap, List.mem_range,
        List.mem_singleton] at hw
      rcases hw with ⟨i, hi, hm⟩ | hm
      · simp only [List.mem_cons, List.mem_singleton, List.not_mem_nil, or_false] at hm
        rcases hm with h | h | h <;> (rw [h]; exact hi)
      · rw [hm]; exact hn
  · intro hn start
    have hg : start < 0 ∨ (g.n : Int) ≤ start := by omega
    refine ⟨?_, ?_, ?_⟩
    · simp only [Graph.bfs]; rw [if_pos hg]
    · simp only [Graph.dfs]; rw [if_pos hg]
    · simp only [Graph.dijkstra]; rw [if_pos hg]

/-- Witness for the amended C9 at the empty graph. -/
theorem C9_primMST_init_bounds_witness :
    ¬ primInitInBounds gZero ∧ Graph.bfs gZero 0 = [] := by
  have h := C9_primMST_init_bounds gZero
  exact ⟨fun hb => absurd (h.1.mp hb) (by decide), (h.2 rfl 0).1⟩

/-! ## C7: setDirected -/

theorem symStep_apply_other (m : Nat → Nat → Int) (p : Nat × Nat) (a b : Nat)
    (h : ¬((a = p.1 ∧ b = p.2) ∨ (a = p.2 ∧ b = p.1))) :
    Graph.symStep m p a b = m a b := by
  unfold Graph.symStep
  split_ifs with h1
  · exact if_neg h
  · rfl

theorem symStep_self (m : Nat → Nat → Int) (p : Nat × Nat)
    (hne : m p.1 p.2 ≠ 0 ∨ m p.2 p.1 ≠ 0) :
    Graph.symStep m p p.1 p.2 = Graph.mergeVal m p.1 p.2 ∧
      Graph.symStep m p p.2 p.1 = Graph.mergeVal m p.1 p.2 := by
  unfold Graph.symStep
  rw [if_pos hne]
  exact ⟨if_pos (Or.inl ⟨rfl, rfl⟩), if_pos (Or.inr ⟨rfl, rfl⟩)⟩

theorem symStep_zero (m : Nat → Nat → Int) (p : Nat × Nat)
    (h1 : m p.1 p.2 = 0) (h2 : m p.2 p.1 = 0) : Graph.symStep m p = m := by
  unfold Graph.symStep
  rw [if_neg]
  push_neg
  exact ⟨h1, h2⟩

theorem foldl_symStep_untouched (L : List (Nat × Nat)) (m : Nat → Nat → Int) (a b : Nat)
    (h : ∀ p ∈ L, ¬((a = p.1 ∧ b = p.2) ∨ (a = p.2 ∧ b = p.1))) :
    L.foldl Graph.symStep m a b = m a b := by
  induction L generalizing m with
  | nil => rfl
  | cons p L ih =>
    rw [List.foldl_cons, ih _ fun q hq => h q (List.mem_cons_of_mem _ hq),
      symStep_apply_other _ _ _ _ (h p (List.mem_cons_self _ _))]

theorem mergeVal_symStep (m : Nat → Nat → Int) (p : Nat × Nat) (a b : Nat)
    (hp : Graph.symStep m p a b = m a b) (hq : Graph.symStep m p b a = m b a) :
    Graph.mergeVal (Graph.symStep m p) a b = Graph.mergeVal m a b := by
  unfold Graph.mergeVal
  rw [hp, hq]

theorem foldl_symStep_mem (L : List (Nat × Nat)) (m : Nat → Nat → Int) (a b : Nat)
    (hab : a < b) (hord : ∀ p ∈ L, p.1 < p.2) (hmem : (a, b) ∈ L) :
    L.foldl Graph.symStep m a b = Graph.mergeVal m a b ∧
      L.foldl Graph.symStep m b a = Graph.mergeVal m a b := by
  induction L generalizing m with
  | nil => cases hmem
  | cons p L ih =>
    obtain ⟨p1, p2⟩ := p
    rw [List.foldl_cons]
    by_cases hp : p1 = a ∧ p2 = b
    · have hpe : ((p1, p2) : Nat × Nat) = (a, b) := by rw [hp.1, hp.2]
      rw [hpe]
      by_cases hmem' : (a, b) ∈ L
      · have ihm := ih (Graph.symStep m (a, b))
          (fun q hq => hord q (List.mem_cons_of_mem _ hq)) hmem'
        have hmv : Graph.mergeVal (Graph.symStep m (a, b)) a b = Graph.mergeVal m a b := by
          by_cases hz : m a b ≠ 0 ∨ m b a ≠ 0
          · have hs := symStep_self m (a, b) hz
            have hs1 : Graph.symStep m (a, b) a b = Graph.mergeVal m a b := hs.1
            have hs2 : Graph.symStep m (a, b) b a = Graph.mergeVal m a b := hs.2
            unfold Graph.mergeVal
            unfold Graph.mergeVal at hs1 hs2
            rw [hs1, hs2, ite_self]
          · push_neg at hz
            rw [symStep_zero m (a, b) hz.1 hz.2]
        rw [ihm.1, ihm.2, hmv]
        exact ⟨rfl, rfl⟩
      · have hunt : ∀ q ∈ L, ¬((a = q.1 ∧ b = q.2) ∨ (a = q.2 ∧ b = q.1)) := by
          intro q hq hc
          obtain ⟨q1, q2⟩ := q
          have hqord : q1 < q2 := hord (q1, q2) (List.mem_cons_of_mem _ hq)
          rcases hc with ⟨h1, h2⟩ | ⟨h1, h2⟩
          · have h1' : a = q1 := h1
            have h2' : b = q2 := h2
            subst h1'
            subst h2'
            exact hmem' hq
          · have h1' : a = q2 := h1
            have h2' : b = q1 := h2
            omega
        have hunt' : ∀ q ∈ L, ¬((b = q.1 ∧ a = q.2) ∨ (b = q.2 ∧ a = q.1)) := by
          intro q hq hc
          obtain ⟨q1, q2⟩ := q
          have hqord : q1 < q2 := hord (q1, q2) (List.mem_cons_of_mem _ hq)
          rcases hc with ⟨h1, h2⟩ | ⟨h1, h2⟩
          · have h1' : b = q1 := h1
            have h2' : a = q2 := h2
            omega
          · have h1' : b = q2 := h1
            have h2' : a = q1 := h2
            subst h1'
            subst h2'
            exact hmem' hq
        rw [foldl_symStep_untouched L _ a b hunt, foldl_symStep_untouched L _ b a hunt']
        by_cases hz : m a b ≠ 0 ∨ m b a ≠ 0
        · have hs := symStep_self m (a, b) hz
          exact ⟨hs.1, hs.2⟩
        · push_neg at hz
          rw [symStep_zero m (a, b) hz.1 hz.2]
          unfold Graph.mergeVal
          rw [if_neg (by simpa using hz.1), hz.1, hz.2]
          exact ⟨rfl, rfl⟩
    · have hmem' : (a, b) ∈ L := by
        rcases List.mem_cons.mp hmem with h | h
        · injection h with ha hb
          exact absurd ⟨ha.symm, hb.symm⟩ hp
        · exact h
      have hpord : p1 < p2 := hord (p1, p2) (List.mem_cons_self _ _)
      have hna : ¬((a = (p1, p2).1 ∧ b = (p1, p2).2) ∨ (a = (p1, p2).2 ∧ b = (p1, p2).1)) := by
        rintro (⟨h1, h2⟩ | ⟨h1, h2⟩)
        · have h1' : a = p1 := h1
          have h2' : b = p2 := h2
          exact hp ⟨h1'.symm, h2'.symm⟩
        · have h1' : a = p2 := h1
          have h2' : b = p1 := h2
          omega
      have hnb : ¬((b = (p1, p2).1 ∧ a = (p1, p2).2) ∨ (b = (p1, p2).2 ∧ a = (p1, p2).1)) := by
        rintro (⟨h1, h2⟩ | ⟨h1, h2⟩)
        · have h1' : b = p1 := h1
          have h2' : a = p2 := h2
          omega
        · have h1' : b = p2 := h1
          have h2' : a = p1 := h2
          exact hp ⟨h2'.symm, h1'.symm⟩
      have hsa := symStep_apply_other m (p1, p2) a b hna
      have hsb := symStep_apply_other m (p1, p2) b a hnb
      have ihm := ih (Graph.symStep m (p1, p2))
        (fun q hq => hord q (List.mem_cons_of_mem _ hq)) hmem'
      rw [ihm.1, ihm.2, mergeVal_symStep m (p1, p2) a b hsa hsb]
      exact ⟨rfl, rfl⟩

theorem mem_pairsUpper {n : Nat} {p : Nat × Nat} :
    p ∈ Graph.pairsUpper n ↔ p.1 < p.2 ∧ p.2 < n := by
  obtain ⟨a, b⟩ := p
  simp only [Graph.pairsUpper, List.mem_flatMap, List.mem_range, List.mem_map]
  constructor
  · rintro ⟨i, hi, j, hj, he⟩
    rw [List.mem_range'_1] at hj
    injection he with h1 h2
    subst h1
    subst h2
    constructor <;> omega
  · rintro ⟨hab, hb⟩
    refine ⟨a, by omega, b, ?_, rfl⟩
    rw [List.mem_range'_1]
    omega

theorem pairsUpper_ord {n : Nat} : ∀ p ∈ Graph.pairsUpper n, p.1 < p.2 :=
  fun _ hp => (mem_pairsUpper.mp hp).1

/-- C7: `setDirected(false)` merges every unordered pair `i < j` with a
nonzero cell, setting both cells to `weight[i][j]` if nonzero and otherwise
to `weight[j][i]`; pairs with both cells zero and all diagonal cells are
untouched; `setDirected(true)` changes no matrix cell
(src/data.cpp lines 559-572). -/
theorem C7_setDirected (g : Graph) (i j : Nat) (hij : i < j) (hj : j < g.n) :
    (g.setDirected true).adj = g.adj ∧ (g.setDirected true).directed = true ∧
    (g.setDirected false).directed = false ∧
    ((g.adj i j ≠ 0 ∨ g.adj j i ≠ 0) →
      (g.setDirected false).adj i j = (if g.adj i j ≠ 0 then g.adj i j else g.adj j i) ∧
      (g.setDirected false).adj j i = (if g.adj i j ≠ 0 then g.adj i j else g.adj j i)) ∧
    (g.adj i j = 0 → g.adj j i = 0 →
      (g.setDirected false).adj i j = g.adj i j ∧ (g.setDirected false).adj j i = g.adj j i) ∧
    (∀ d : Nat, (g.setDirected false).adj d d = g.adj d d) := by
  have hmem : (i, j) ∈ Graph.pairsUpper g.n := mem_pairsUpper.mpr ⟨hij, hj⟩
  have hchar := foldl_symStep_mem (Graph.pairsUpper g.n) g.adj i j hij pairsUpper_ord hmem
  refine ⟨rfl, rfl, rfl, ?_, ?_, ?_⟩
  · intro _
    show (Graph.pairsUpper g.n).foldl Graph.symStep g.adj i j = _ ∧
      (Graph.pairsUpper g.n).foldl Graph.symStep g.adj j i = _
    rw [hchar.1, hchar.2]
    exact ⟨rfl, rfl⟩
  · intro h1 h2
    show (Graph.pairsUpper g.n).foldl Graph.symStep g.adj i j = _ ∧
      (Graph.pairsUpper g.n).foldl Graph.symStep g.adj j i = _
    rw [hchar.1, hchar.2]
    unfold Graph.mergeVal
    rw [if_neg (by simpa using h1), h1, h2]
    exact ⟨rfl, rfl⟩
  · intro d
    show (Graph.pairsUpper g.n).foldl Graph.symStep g.adj d d = _
    refine foldl_symStep_untouched _ _ _ _ ?_
    rintro p hp (⟨h1, h2⟩ | ⟨h1, h2⟩) <;>
      · have := pairsUpper_ord p hp
        omega

/-- Witness for C7 at the concrete demo graph and the pair `(0, 1)`. -/
theorem C7_setDirected_witness :
    (0 : Nat) < 1 ∧ (1 : Nat) < gDemo.n ∧
      (gDemo.setDirected true).adj = gDemo.adj := by
  exact ⟨by decide, by decide, (C7_setDirected gDemo 0 1 (by decide) (by decide)).1⟩

/-! ## C5: removeVertex -/

theorem shiftUp_ne (w x : Nat) : Graph.shiftUp w x ≠ w := by
  unfold Graph.shiftUp
  split_ifs <;> omega

theorem shiftUp_lt {n w x : Nat} (hx : x < n - 1) (hw : w < n) : Graph.shiftUp w x < n := by
  unfold Graph.shiftUp
  split_ifs <;> omega

theorem compactAt_lt {n w i : Nat} (hi : i < n) (hiw : i ≠ w) (hw : w < n) :
    Graph.compactAt w i < n - 1 := by
  unfold Graph.compactAt
  split_ifs <;> omega

theorem shiftUp_eq_iff {w i a : Nat} (hiw : i ≠ w) :
    Graph.shiftUp w a = i ↔ a = Graph.compactAt w i := by
  unfold Graph.shiftUp Graph.compactAt
  split_ifs <;> omega

theorem compactAt_succ (w k : Nat) :
    Graph.compactAt w (k + 1) = if k = w then Graph.compactAt w k else Graph.compactAt w k + 1 := by
  unfold Graph.compactAt
  split_ifs <;> omega

theorem addEdge_n (g : Graph) (u v w : Int) : (g.addEdge u v w).n = g.n := by
  unfold Graph.addEdge
  split_ifs <;> rfl

theorem addEdge_directed (g : Graph) (u v w : Int) :
    (g.addEdge u v w).directed = g.directed := by
  unfold Graph.addEdge
  split_ifs <;> rfl

theorem addEdge_adj (g : Graph) (u v : Nat) (hu : u < g.n) (hv : v < g.n) (w : Int)
    (a b : Nat) :
    (g.addEdge (u : Int) (v : Int) w).adj a b =
      if g.directed = false ∧ u ≠ v ∧ a = v ∧ b = u then w
      else if a = u ∧ b = v then w
      else g.adj a b := by
  unfold Graph.addEdge
  rw [if_pos ⟨Int.natCast_nonneg u, by exact_mod_cast hu, Int.natCast_nonneg v,
    by exact_mod_cast hv⟩]
  simp only [Int.toNat_natCast]

theorem rvInner_go (g : Graph) (w i : Nat) (hw : w < g.n) (hi : i < g.n) (hiw : i ≠ w)
    (hsym : g.directed = false → ∀ a b, g.adj a b = g.adj b a) :
    ∀ m k acc, k + m = g.n → acc.n = g.n - 1 → acc.directed = g.directed →
      Graph.rvInvI g w i k acc →
      ((List.range' k m).foldl (Graph.rvInnerStep g i (Graph.compactAt w i) w)
          (acc, Graph.compactAt w k)).1.n = g.n - 1 ∧
        ((List.range' k m).foldl (Graph.rvInnerStep g i (Graph.compactAt w i) w)
          (acc, Graph.compactAt w k)).1.directed = g.directed ∧
        Graph.rvInvI g w i g.n
          ((List.range' k m).foldl (Graph.rvInnerStep g i (Graph.compactAt w i) w)
            (acc, Graph.compactAt w k)).1 := by
  intro m
  induction m with
  | zero =>
    intro k acc hk hn hd hinv
    have hkn : k = g.n := by omega
    subst hkn
    exact ⟨hn, hd, hinv⟩
  | succ m ih =>
    intro k acc hk hn hd hinv
    rw [List.range'_succ k m 1, List.foldl_cons]
    have hkn : k < g.n := by omega
    by_cases hkw : k = w
    · have hstep : Graph.rvInnerStep g i (Graph.compactAt w i) w (acc, Graph.compactAt w k) k =
          (acc, Graph.compactAt w (k + 1)) := by
        unfold Graph.rvInnerStep
        rw [if_pos hkw, compactAt_succ, if_pos hkw]
      rw [hstep]
      refine ih (k + 1) acc (by omega) hn hd ?_
      intro a b ha hb
      rw [hinv a b ha hb]
      have hA := shiftUp_ne w a
      have hB := shiftUp_ne w b
      refine if_congr ?_ rfl rfl
      cases hbdir : g.directed with
      | false =>
        simp only [hbdir, eq_self_iff_true, true_and]
        omega
      | true =>
        simp only [hbdir, Bool.true_eq_false, false_and, false_or, or_false]
        omega
    · by_cases hz : g.adj i k = 0
      · have hstep : Graph.rvInnerStep g i (Graph.compactAt w i) w (acc, Graph.compactAt w k) k =
            (acc, Graph.compactAt w (k + 1)) := by
          unfold Graph.rvInnerStep
          rw [if_neg hkw, if_neg (by simpa using hz), compactAt_succ, if_neg hkw]
        rw [hstep]
        refine ih (k + 1) acc (by omega) hn hd ?_
        intro a b ha hb
        rw [hinv a b ha hb]
        have hA := shiftUp_ne w a
        have hB := shiftUp_ne w b
        cases hbdir : g.directed with
        | false =>
          simp only [hbdir, eq_self_iff_true, true_and]
          by_cases hcell : Graph.shiftUp w a = i ∧ Graph.shiftUp w b = k
          · rw [hcell.1, hcell.2, hz]
            simp
          · by_cases hcell' : Graph.shiftUp w b = i ∧ Graph.shiftUp w a = k
            · rw [hcell'.1, hcell'.2, hsym hbdir k i, hz]
              simp
            · refine if_congr ?_ rfl rfl
              omega
        | true =>
          simp only [hbdir, Bool.true_eq_false, false_and, false_or, or_false]
          by_cases hcell : Graph.shiftUp w a = i ∧ Graph.shiftUp w b = k
          · rw [hcell.1, hcell.2, hz]
            simp
          · refine if_congr ?_ rfl rfl
            omega
      · have hci : Graph.compactAt w i < g.n - 1 := compactAt_lt hi hiw hw
        have hck : Graph.compactAt w k < g.n - 1 := compactAt_lt hkn hkw hw
        have hstep : Graph.rvInnerStep g i (Graph.compactAt w i) w (acc, Graph.compactAt w k) k =
            (acc.addEdge (Graph.compactAt w i : Int) (Graph.compactAt w k : Int) (g.adj i k),
              Graph.compactAt w (k + 1)) := by
          unfold Graph.rvInnerStep
          rw [if_neg hkw, if_pos hz, compactAt_succ, if_neg hkw]
        rw [hstep]
        refine ih (k + 1) _ (by omega) (by rw [addEdge_n, hn]) (by rw [addEdge_directed, hd]) ?_
        intro a b ha hb
        rw [addEdge_adj acc (Graph.compactAt w i) (Graph.compactAt w k)
          (by rw [hn]; exact hci) (by rw [hn]; exact hck) (g.adj i k) a b, hd]
        have hA := shiftUp_ne w a
        have hB := shiftUp_ne w b
        have e1 : Graph.shiftUp w a = i ↔ a = Graph.compactAt w i := shiftUp_eq_iff hiw
        have e2 : Graph.shiftUp w b = k ↔ b = Graph.compactAt w k := shiftUp_eq_iff hkw
        have e3 : Graph.shiftUp w b = i ↔ b = Graph.compactAt w i := shiftUp_eq_iff hiw
        have e4 : Graph.shiftUp w a = k ↔ a = Graph.compactAt w k := shiftUp_eq_iff hkw
        have hsc1 : Graph.shiftUp w (Graph.compactAt w i) = i := (shiftUp_eq_iff hiw).mpr rfl
        have hsc2 : Graph.shiftUp w (Graph.compactAt w k) = k := (shiftUp_eq_iff hkw).mpr rfl
        cases hbdir : g.directed with
        | false =>
          simp only [hbdir, eq_self_iff_true, true_and]
          by_cases hcd : a = Graph.compactAt w i ∧ b = Graph.compactAt w k
          · have hmirn : ¬(Graph.compactAt w i ≠ Graph.compactAt w k ∧
                a = Graph.compactAt w k ∧ b = Graph.compactAt w i) := by
              rintro ⟨h1, h2, h3⟩
              exact h1 (hcd.1.symm.trans h2)
            rw [if_neg hmirn, if_pos hcd, hcd.1, hcd.2, hsc1, hsc2]
            rw [if_pos ⟨hz, Or.inr (Or.inl ⟨rfl, by omega⟩)⟩]
          · by_cases hmir : Graph.compactAt w i ≠ Graph.compactAt w k ∧
                a = Graph.compactAt w k ∧ b = Graph.compactAt w i
            · rw [if_pos hmir, hmir.2.1, hmir.2.2, hsc1, hsc2, hsym hbdir k i]
              rw [if_pos ⟨hz, Or.inr (Or.inr ⟨Ne.symm hmir.1, rfl, by omega⟩)⟩]
            · rw [if_neg hmir, if_neg hcd, hinv a b ha hb]
              refine if_congr ?_ rfl rfl
              simp only [hbdir, eq_self_iff_true, true_and]
              omega
        | true =>
          simp only [hbdir, Bool.true_eq_false, false_and, false_or, or_false, if_false]
          by_cases hcd : a = Graph.compactAt w i ∧ b = Graph.compactAt w k
          · rw [if_pos hcd, hcd.1, hcd.2, hsc1, hsc2]
            rw [if_pos ⟨hz, Or.inr ⟨rfl, by omega⟩⟩]
          · rw [if_neg hcd, hinv a b ha hb]
            refine if_congr ?_ rfl rfl
            simp only [hbdir, Bool.true_eq_false, false_and, false_or, or_false]
            omega

theorem rvOuter_go (g : Graph) (w : Nat) (hw : w < g.n)
    (hsym : g.directed = false → ∀ a b, g.adj a b = g.adj b a) :
    ∀ m k acc, k + m = g.n → acc.n = g.n - 1 → acc.directed = g.directed →
      Graph.rvInvO g w k acc →
      ((List.range' k m).foldl (Graph.rvOuterStep g w) (acc, Graph.compactAt w k)).1.n =
          g.n - 1 ∧
        ((List.range' k m).foldl (Graph.rvOuterStep g w)
          (acc, Graph.compactAt w k)).1.directed = g.directed ∧
        Graph.rvInvO g w g.n
          ((List.range' k m).foldl (Graph.rvOuterStep g w) (acc, Graph.compactAt w k)).1 := by
  intro m
  induction m with
  | zero =>
    intro k acc hk hn hd hinv
    have hkn : k = g.n := by omega
    subst hkn
    exact ⟨hn, hd, hinv⟩
  | succ m ih =>
    intro k acc hk hn hd hinv
    rw [List.range'_succ k m 1, List.foldl_cons]
    have hkn : k < g.n := by omega
    by_cases hkw : k = w
    · have hstep : Graph.rvOuterStep g w (acc, Graph.compactAt w k) k =
          (acc, Graph.compactAt w (k + 1)) := by
        unfold Graph.rvOuterStep
        rw [if_pos hkw, compactAt_succ, if_pos hkw]
      rw [hstep]
      refine ih (k + 1) acc (by omega) hn hd ?_
      intro a b ha hb
      rw [hinv a b ha hb]
      have hA := shiftUp_ne w a
      have hB := shiftUp_ne w b
      refine if_congr ?_ rfl rfl
      cases hbdir : g.directed with
      | false =>
        simp only [hbdir, eq_self_iff_true, true_and]
        omega
      | true =>
        simp only [hbdir, Bool.true_eq_false, false_and, false_or, or_false]
        omega
    · have hstep : Graph.rvOuterStep g w (acc, Graph.compactAt w k) k =
          (Graph.rvInner g w k (Graph.compactAt w k) acc, Graph.compactAt w (k + 1)) := by
        unfold Graph.rvOuterStep
        rw [if_neg hkw, compactAt_succ, if_neg hkw]
      rw [hstep]
      have hinv0 : Graph.rvInvI g w k 0 acc := by
        intro a b ha hb
        rw [hinv a b ha hb]
        refine if_congr ?_ rfl rfl
        cases hbdir : g.directed with
        | false =>
          simp only [hbdir, eq_self_iff_true, true_and]
          omega
        | true =>
          simp only [hbdir, Bool.true_eq_false, false_and, false_or, or_false]
          omega
      have hc0 : Graph.compactAt w 0 = 0 := by
        unfold Graph.compactAt
        simp
      have hin := rvInner_go g w k hw hkn hkw hsym g.n 0 acc (by omega) hn hd hinv0
      rw [hc0] at hin
      rw [← List.range_eq_range'] at hin
      have hinner : Graph.rvInner g w k (Graph.compactAt w k) acc =
          ((List.range g.n).foldl (Graph.rvInnerStep g k (Graph.compactAt w k) w)
            (acc, 0)).1 := rfl
      rw [hinner]
      refine ih (k + 1) _ (by omega) hin.1 hin.2.1 ?_
      intro a b ha hb
      rw [hin.2.2 a b ha hb]
      have hA := shiftUp_ne w a
      have hB := shiftUp_ne w b
      have hAn : Graph.shiftUp w a < g.n := shiftUp_lt ha hw
      have hBn : Graph.shiftUp w b < g.n := shiftUp_lt hb hw
      refine if_congr ?_ rfl rfl
      cases hbdir : g.directed with
      | false =>
        simp only [hbdir, eq_self_iff_true, true_and]
        omega
      | true =>
        simp only [hbdir, Bool.true_eq_false, false_and, false_or, or_false]
        omega

/-- C5: for every graph satisfying the data-model invariant (an undirected
matrix is symmetric) and every in-range vertex `v`, `removeVertex(v)` leaves
the receiver unchanged and returns a new graph with one fewer vertex whose
matrix is the receiver's with row and column `v` deleted and the surviving
indices compacted in order (src/data.cpp lines 578-605). -/
theorem C5_removeVertex (g : Graph) (v : Int) (h0 : 0 ≤ v) (hvn : v < (g.n : Int))
    (hsym : g.directed = false → ∀ i j, g.adj i j = g.adj j i) :
    (g.removeVertex v).1 = g ∧ (g.removeVertex v).2.n = g.n - 1 ∧
      (g.removeVertex v).2.directed = g.directed ∧
      ∀ a b, a < g.n - 1 → b < g.n - 1 →
        (g.removeVertex v).2.adj a b =
          g.adj (Graph.shiftUp v.toNat a) (Graph.shiftUp v.toNat b) := by
  have hguard : ¬(v < 0 ∨ (g.n : Int) ≤ v) := by omega
  have hw : v.toNat < g.n := by omega
  unfold Graph.removeVertex
  rw [if_neg hguard]
  have hinv0 : Graph.rvInvO g v.toNat 0 ⟨g.n - 1, fun _ _ => 0, g.directed⟩ := by
    intro a b ha hb
    rw [if_neg]
    rintro ⟨-, h | ⟨-, -, h⟩⟩ <;> omega
  have hc0 : Graph.compactAt v.toNat 0 = 0 := by
    unfold Graph.compactAt
    simp
  have H := rvOuter_go g v.toNat hw hsym g.n 0 ⟨g.n - 1, fun _ _ => 0, g.directed⟩
    (by omega) rfl rfl hinv0
  rw [hc0, ← List.range_eq_range'] at H
  have houter : Graph.rvOuter g v.toNat =
      ((List.range g.n).foldl (Graph.rvOuterStep g v.toNat)
        ((⟨g.n - 1, fun _ _ => 0, g.directed⟩ : Graph), 0)).1 := rfl
  refine ⟨rfl, by rw [houter]; exact H.1, by rw [houter]; exact H.2.1, ?_⟩
  intro a b ha hb
  show (Graph.rvOuter g v.toNat).adj a b = _
  rw [houter, H.2.2 a b ha hb]
  by_cases hT : g.adj (Graph.shiftUp v.toNat a) (Graph.shiftUp v.toNat b) = 0
  · rw [if_neg (by rintro ⟨h, -⟩; exact h hT), hT]
  · rw [if_pos ⟨hT, Or.inl (shiftUp_lt ha hw)⟩]

/-- Witness for C5 at the demo graph, removing vertex `1`. -/
theorem C5_removeVertex_witness :
    (0 : Int) ≤ 1 ∧ (1 : Int) < (gDemo.n : Int) ∧
      (gDemo.removeVertex 1).1 = gDemo ∧ (gDemo.removeVertex 1).2.n = gDemo.n - 1 := by
  have hsym : gDemo.directed = false → ∀ i j, gDemo.adj i j = gDemo.adj j i := by
    intro _ i j
    simp only [gDemo]
    split_ifs <;> omega
  have h := C5_removeVertex gDemo 1 (by decide) (by decide) hsym
  exact ⟨by decide, by decide, h.1, h.2.1⟩

/-! ## C4: BFS and DFS -/

theorem countFalse_succ (n : Nat) (f : Nat → Bool) :
    countFalse (n + 1) f = countFalse n f + (if f n = false then 1 else 0) := by
  unfold countFalse
  rw [List.range_succ, List.filter_append, List.length_append]
  cases h : f n <;> simp [h]

theorem countFalse_congr {n : Nat} {f f' : Nat → Bool} (h : ∀ x, x < n → f x = f' x) :
    countFalse n f = countFalse n f' := by
  unfold countFalse
  rw [List.filter_congr]
  intro x hx
  rw [h x (List.mem_range.mp hx)]

theorem countFalse_le (n : Nat) (f : Nat → Bool) : countFalse n f ≤ n := by
  calc countFalse n f ≤ (List.range n).length := List.length_filter_le _ _
  _ = n := List.length_range n

theorem countFalse_pos {n v : Nat} {f : Nat → Bool} (hv : v < n) (hf : f v = false) :
    1 ≤ countFalse n f := by
  have hmem : v ∈ (List.range n).filter fun x => !f x :=
    List.mem_filter.mpr ⟨List.mem_range.mpr hv, by simp [hf]⟩
  exact List.length_pos_of_mem hmem

theorem countFalse_update {n v : Nat} {f : Nat → Bool} (hv : v < n) (hf : f v = false) :
    countFalse n (Function.update f v true) + 1 = countFalse n f := by
  induction n with
  | zero => omega
  | succ n ih =>
    rw [countFalse_succ, countFalse_succ]
    by_cases hvn : v = n
    · subst hvn
      have hcg : countFalse v (Function.update f v true) = countFalse v f :=
        countFalse_congr fun x hx => Function.update_noteq (by omega) _ _
      rw [hcg, Function.update_same, hf]
      simp
    · have hv' : v < n := by omega
      rw [Function.update_noteq (show n ≠ v by omega)]
      have := ih hv'
      omega

theorem bfsScan_go (g : Graph) (node : Nat) :
    ∀ (L : List Nat) (vis : Nat → Bool) (q : List Nat), L.Nodup → (∀ x ∈ L, x < g.n) →
      (L.foldl (g.bfsScanStep node) (vis, q)).2 =
        q ++ L.filter (fun v => decide (g.adj node v ≠ 0) && !vis v) ∧
      (∀ v, (L.foldl (g.bfsScanStep node) (vis, q)).1 v = true ↔
        (vis v = true ∨ (v ∈ L ∧ g.adj node v ≠ 0))) ∧
      (L.foldl (g.bfsScanStep node) (vis, q)).2.length +
          countFalse g.n (L.foldl (g.bfsScanStep node) (vis, q)).1 =
        q.length + countFalse g.n vis := by
  intro L
  induction L with
  | nil =>
    intro vis q _ _
    exact ⟨by simp, fun v => by simp, rfl⟩
  | cons c L ih =>
    intro vis q hnd hL
    rw [List.foldl_cons]
    have hnd' : L.Nodup := (List.nodup_cons.mp hnd).2
    have hcL : c ∉ L := (List.nodup_cons.mp hnd).1
    have hL' : ∀ x ∈ L, x < g.n := fun x hx => hL x (List.mem_cons_of_mem _ hx)
    have hcn : c < g.n := hL c (List.mem_cons_self _ _)
    by_cases hc : g.adj node c ≠ 0 ∧ vis c = false
    · have hstep : g.bfsScanStep node (vis, q) c = (Function.update vis c true, q ++ [c]) := by
        unfold Graph.bfsScanStep
        rw [if_pos hc]
      rw [hstep]
      obtain ⟨ih1, ih2, ih3⟩ := ih (Function.update vis c true) (q ++ [c]) hnd' hL'
      refine ⟨?_, ?_, ?_⟩
      · rw [ih1, List.append_assoc]
        congr 1
        rw [List.filter_cons]
        have hpc : (decide (g.adj node c ≠ 0) && !vis c) = true := by
          simp [hc.1, hc.2]
        rw [hpc]
        simp only [List.singleton_append, if_true]
        congr 1
        refine List.filter_congr fun v hv => ?_
        rw [Function.update_noteq (fun he : v = c => hcL (he ▸ hv))]
      · intro v
        rw [ih2 v]
        by_cases hvc : v = c
        · subst hvc
          simp [Function.update_same, hc.1]
        · rw [Function.update_noteq hvc]
          simp only [List.mem_cons]
          constructor
          · rintro (h | ⟨hm, ha⟩)
            · exact Or.inl h
            · exact Or.inr ⟨Or.inr hm, ha⟩
          · rintro (h | ⟨hm | hm, ha⟩)
            · exact Or.inl h
            · exact absurd hm hvc
            · exact Or.inr ⟨hm, ha⟩
      · rw [ih3, List.length_append]
        have := countFalse_update hcn hc.2
        simp only [List.length_singleton]
        omega
    · have hstep : g.bfsScanStep node (vis, q) c = (vis, q) := by
        unfold Graph.bfsScanStep
        rw [if_neg hc]
      rw [hstep]
      obtain ⟨ih1, ih2, ih3⟩ := ih vis q hnd' hL'
      refine ⟨?_, ?_, ih3⟩
      · rw [ih1]
        congr 1
        rw [List.filter_cons]
        have hpc : (decide (g.adj node c ≠ 0) && !vis c) = false := by
          by_cases ha : g.adj node c ≠ 0
          · have hvc : vis c = true := by
              by_contra hcc
              exact hc ⟨ha, by simpa using hcc⟩
            simp [hvc]
          · simp [ha]
        rw [hpc]
        simp
      · intro v
        rw [ih2 v]
        simp only [List.mem_cons]
        constructor
        · rintro (h | ⟨hm, ha⟩)
          · exact Or.inl h
          · exact Or.inr ⟨Or.inr hm, ha⟩
        · rintro (h | ⟨hm | hm, ha⟩)
          · exact Or.inl h
          · subst hm
            left
            by_contra hcc
            exact hc ⟨ha, by simpa using hcc⟩
          · exact Or.inr ⟨hm, ha⟩

theorem rt_avoid_start {r : Nat → Nat → Prop} {s v : Nat}
    (h : Relation.ReflTransGen r s v) :
    v = s ∨ Relation.ReflTransGen (fun a b => r a b ∧ b ≠ s) s v := by
  induction h with
  | refl => exact Or.inl rfl
  | @tail b c _ hbc ih =>
    by_cases hcs : c = s
    · exact Or.inl hcs
    · rcases ih with rfl | ih
      · exact Or.inr (Relation.ReflTransGen.single ⟨hbc, hcs⟩)
      · exact Or.inr (ih.tail ⟨hbc, hcs⟩)

theorem rt_last_mark {r : Nat → Nat → Prop} {P : Nat → Prop} [DecidablePred P]
    {u v : Nat} (h : Relation.ReflTransGen r u v) :
    Relation.ReflTransGen (fun a b => r a b ∧ ¬P b) u v ∨
      ∃ w, P w ∧ Relation.ReflTransGen (fun a b => r a b ∧ ¬P b) w v := by
  induction h with
  | refl => exact Or.inl Relation.ReflTransGen.refl
  | @tail b c _ hbc ih =>
    by_cases hP : P c
    · exact Or.inr ⟨c, hP, Relation.ReflTransGen.refl⟩
    · rcases ih with ih | ⟨w, hw, ih⟩
      · exact Or.inl (ih.tail ⟨hbc, hP⟩)
      · exact Or.inr ⟨w, hw, ih.tail ⟨hbc, hP⟩⟩

theorem bfsLoop_spec (g : Graph) :
    ∀ (fuel : Nat) (vis : Nat → Bool) (q : List Nat),
      (∀ x ∈ q, x < g.n ∧ vis x = true) → q.Nodup →
      q.length + countFalse g.n vis ≤ fuel →
      (Graph.bfsLoop g fuel vis q).Nodup ∧
        ∀ v, v ∈ Graph.bfsLoop g fuel vis q ↔
          v ∈ q ∨ (vis v = false ∧ ∃ u ∈ q,
            Relation.ReflTransGen (fun a b => g.Edge a b ∧ vis b = false) u v) := by
  intro fuel
  induction fuel with
  | zero =>
    intro vis q hq hnd hfuel
    have hq0 : q = [] := List.eq_nil_of_length_eq_zero (by omega)
    subst hq0
    exact ⟨List.nodup_nil, fun v => by simp [Graph.bfsLoop]⟩
  | succ fuel ih =>
    intro vis q hq hnd hfuel
    cases q with
    | nil => exact ⟨List.nodup_nil, fun v => by simp [Graph.bfsLoop]⟩
    | cons node rest =>
      have hnode : node < g.n ∧ vis node = true := hq node (List.mem_cons_self _ _)
      obtain ⟨hs2, hs1, hs3⟩ :=
        bfsScan_go g node (List.range g.n) vis rest (List.nodup_range g.n)
          (fun x hx => List.mem_range.mp hx)
      simp only [show (List.range g.n).foldl (g.bfsScanStep node) (vis, rest) =
        g.bfsScan node (vis, rest) from rfl] at hs1 hs2 hs3
      have hunf : Graph.bfsLoop g (fuel + 1) vis (node :: rest) =
          node :: Graph.bfsLoop g fuel (g.bfsScan node (vis, rest)).1
            (g.bfsScan node (vis, rest)).2 := rfl
      rw [hunf]
      set vis' := (g.bfsScan node (vis, rest)).1 with hvisUpd
      set Sl := (List.range g.n).filter
        (fun v => decide (g.adj node v ≠ 0) && !vis v) with hSldef
      have hq2 : (g.bfsScan node (vis, rest)).2 = rest ++ Sl := hs2
      rw [hq2]
      have hSl : ∀ x, x ∈ Sl ↔ (x < g.n ∧ g.adj node x ≠ 0 ∧ vis x = false) := by
        intro x
        rw [hSldef]
        simp [List.mem_filter, List.mem_range, and_assoc]
      have hvt : ∀ b, vis' b = true ↔ (vis b = true ∨ (b < g.n ∧ g.adj node b ≠ 0)) := by
        intro b
        rw [hs1 b]
        simp [List.mem_range]
      have hvf : ∀ b, vis' b = false ↔
          (vis b = false ∧ ¬(b < g.n ∧ g.adj node b ≠ 0)) := by
        intro b
        constructor
        · intro h
          refine ⟨?_, ?_⟩
          · cases hvb : vis b
            · rfl
            · exact absurd ((hvt b).mpr (Or.inl hvb)) (by rw [h]; simp)
          · intro hc
            exact absurd ((hvt b).mpr (Or.inr hc)) (by rw [h]; simp)
        · rintro ⟨h1, h2⟩
          cases hb : vis' b
          · rfl
          · rcases (hvt b).mp hb with hc | hc
            · rw [h1] at hc
              cases hc
            · exact absurd hc h2
      have hmemq' : ∀ x ∈ rest ++ Sl, x < g.n ∧ vis' x = true := by
        intro x hx
        rcases List.mem_append.mp hx with hx | hx
        · have h := hq x (List.mem_cons_of_mem _ hx)
          exact ⟨h.1, (hvt x).mpr (Or.inl h.2)⟩
        · have h := (hSl x).mp hx
          exact ⟨h.1, (hvt x).mpr (Or.inr ⟨h.1, h.2.1⟩)⟩
      have hndq' : (rest ++ Sl).Nodup := by
        refine List.Nodup.append ((List.nodup_cons.mp hnd).2)
          (List.Nodup.filter _ (List.nodup_range _)) ?_
        intro x hx hx'
        have h1 := (hq x (List.mem_cons_of_mem _ hx)).2
        have h2 := ((hSl x).mp hx').2.2
        rw [h1] at h2
        cases h2
      have hfuel' : (rest ++ Sl).length + countFalse g.n vis' ≤ fuel := by
        rw [← hq2]
        have hlen : (node :: rest).length = rest.length + 1 := by
          simp
        omega
      obtain ⟨ihnd, ihiff⟩ := ih vis' (rest ++ Sl) hmemq' hndq' hfuel'
      have hnotmem : node ∉ Graph.bfsLoop g fuel vis' (rest ++ Sl) := by
        rw [ihiff node]
        rintro (hm | ⟨hvf', -⟩)
        · rcases List.mem_append.mp hm with hm | hm
          · exact (List.nodup_cons.mp hnd).1 hm
          · have := ((hSl node).mp hm).2.2
            rw [hnode.2] at this
            cases this
        · rw [(hvt node).mpr (Or.inl hnode.2)] at hvf'
          cases hvf'
      refine ⟨List.nodup_cons.mpr ⟨hnotmem, ihnd⟩, ?_⟩
      intro v
      rw [List.mem_cons, ihiff v]
      constructor
      · rintro (rfl | hm | ⟨hv', u, hu, hpath⟩)
        · exact Or.inl (List.mem_cons_self _ _)
        · rcases List.mem_append.mp hm with hm | hm
          · exact Or.inl (List.mem_cons_of_mem _ hm)
          · have h := (hSl v).mp hm
            exact Or.inr ⟨h.2.2, node, List.mem_cons_self _ _,
              Relation.ReflTransGen.single ⟨⟨hnode.1, h.1, h.2.1⟩, h.2.2⟩⟩
        · have hvisv : vis v = false := ((hvf v).mp hv').1
          have hpath' : Relation.ReflTransGen
              (fun a b => g.Edge a b ∧ vis b = false) u v := by
            refine Relation.ReflTransGen.mono ?_ hpath
            intro a b hab
            exact ⟨hab.1, ((hvf b).mp hab.2).1⟩
          rcases List.mem_append.mp hu with hu | hu
          · exact Or.inr ⟨hvisv, u, List.mem_cons_of_mem _ hu, hpath'⟩
          · have h := (hSl u).mp hu
            exact Or.inr ⟨hvisv, node, List.mem_cons_self _ _,
              hpath'.head ⟨⟨hnode.1, h.1, h.2.1⟩, h.2.2⟩⟩
      · rintro (hm | ⟨hvisv, u, hu, hpath⟩)
        · rcases List.mem_cons.mp hm with rfl | hm
          · exact Or.inl rfl
          · exact Or.inr (Or.inl (List.mem_append.mpr (Or.inl hm)))
        · right
          by_cases hv' : vis' v = true
          · have hP : v < g.n ∧ g.adj node v ≠ 0 := by
              rcases (hvt v).mp hv' with h | h
              · rw [hvisv] at h
                cases h
              · exact h
            exact Or.inl (List.mem_append.mpr (Or.inr ((hSl v).mpr ⟨hP.1, hP.2, hvisv⟩)))
          · have hvFalse : vis' v = false := by
              cases hb : vis' v
              · rfl
              · exact absurd hb hv'
            rcases @rt_last_mark _ (fun w => w < g.n ∧ g.adj node w ≠ 0 ∧ vis w = false)
                (fun _ => inferInstance) _ _ hpath with hpath' | ⟨w, hw, hpath'⟩
            · have hpathR' : Relation.ReflTransGen
                  (fun a b => g.Edge a b ∧ vis' b = false) u v := by
                refine Relation.ReflTransGen.mono ?_ hpath'
                intro a b hab
                refine ⟨hab.1.1, (hvf b).mpr ⟨hab.1.2, ?_⟩⟩
                intro hc
                exact hab.2 ⟨hc.1, hc.2, hab.1.2⟩
              rcases List.mem_cons.mp hu with rfl | hu
              · rcases (Relation.ReflTransGen.cases_head hpathR') with he | ⟨c, hc, -⟩
                · rw [← he] at hvisv
                  simp [hnode.2] at hvisv
                · have := (hvf c).mp hc.2
                  exact absurd ⟨hc.1.2.1, hc.1.2.2⟩ this.2
              · exact Or.inr ⟨hvFalse, u, List.mem_append.mpr (Or.inl hu), hpathR'⟩
            · have hpathR' : Relation.ReflTransGen
                  (fun a b => g.Edge a b ∧ vis' b = false) w v := by
                refine Relation.ReflTransGen.mono ?_ hpath'
                intro a b hab
                refine ⟨hab.1.1, (hvf b).mpr ⟨hab.1.2, ?_⟩⟩
                intro hc
                exact hab.2 ⟨hc.1, hc.2, hab.1.2⟩
              exact Or.inr ⟨hvFalse, w,
                List.mem_append.mpr (Or.inr ((hSl w).mpr hw)), hpathR'⟩

theorem dfsPush_go (g : Graph) (node : Nat) (vis : Nat → Bool) :
    ∀ (L : List Nat) (st : List Nat),
      L.reverse.foldl (g.dfsPushStep node vis) st =
        L.filter (fun v => decide (g.adj node v ≠ 0) && !vis v) ++ st := by
  intro L
  induction L with
  | nil => intro st; rfl
  | cons c L ih =>
    intro st
    rw [List.reverse_cons, List.foldl_append, ih st, List.foldl_cons, List.foldl_nil,
      List.filter_cons]
    unfold Graph.dfsPushStep
    by_cases hc : g.adj node c ≠ 0 ∧ vis c = false
    · rw [if_pos hc]
      have hpc : (decide (g.adj node c ≠ 0) && !vis c) = true := by
        simp [hc.1, hc.2]
      rw [hpc]
      simp
    · rw [if_neg hc]
      have hpc : (decide (g.adj node c ≠ 0) && !vis c) = false := by
        by_cases ha : g.adj node c ≠ 0
        · have hvc : vis c = true := by
            by_contra hcc
            exact hc ⟨ha, by simpa using hcc⟩
          simp [hvc]
        · simp [ha]
      rw [hpc]
      simp

theorem dfsLoop_spec (g : Graph) :
    ∀ (fuel : Nat) (vis : Nat → Bool) (st : List Nat),
      (∀ x ∈ st, x < g.n) →
      st.length + (g.n + 1) * countFalse g.n vis ≤ fuel →
      (Graph.dfsLoop g fuel vis st).Nodup ∧
        ∀ v, v ∈ Graph.dfsLoop g fuel vis st ↔
          (vis v = false ∧ ∃ u ∈ st, vis u = false ∧
            Relation.ReflTransGen (fun a b => g.Edge a b ∧ vis b = false) u v) := by
  intro fuel
  induction fuel with
  | zero =>
    intro vis st hst hfuel
    have hst0 : st = [] := List.eq_nil_of_length_eq_zero (by omega)
    subst hst0
    exact ⟨List.nodup_nil, fun v => by simp [Graph.dfsLoop]⟩
  | succ fuel ih =>
    intro vis st hst hfuel
    cases st with
    | nil => exact ⟨List.nodup_nil, fun v => by simp [Graph.dfsLoop]⟩
    | cons node rest =>
      have hnoden : node < g.n := hst node (List.mem_cons_self _ _)
      have hrest : ∀ x ∈ rest, x < g.n := fun x hx => hst x (List.mem_cons_of_mem _ hx)
      have hunf : Graph.dfsLoop g (fuel + 1) vis (node :: rest) =
          if vis node = true then Graph.dfsLoop g fuel vis rest
          else node :: Graph.dfsLoop g fuel (Function.update vis node true)
            (g.dfsPush node (Function.update vis node true) rest) := rfl
      rw [hunf]
      by_cases hvisn : vis node = true
      · rw [if_pos hvisn]
        obtain ⟨ihnd, ihiff⟩ := ih vis rest hrest (by simp at hfuel; omega)
        refine ⟨ihnd, fun v => ?_⟩
        rw [ihiff v]
        constructor
        · rintro ⟨h1, u, hu, h2, h3⟩
          exact ⟨h1, u, List.mem_cons_of_mem _ hu, h2, h3⟩
        · rintro ⟨h1, u, hu, h2, h3⟩
          rcases List.mem_cons.mp hu with rfl | hu
          · rw [hvisn] at h2
            cases h2
          · exact ⟨h1, u, hu, h2, h3⟩
      · rw [if_neg hvisn]
        have hvisn' : vis node = false := by
          cases hb : vis node
          · rfl
          · exact absurd hb hvisn
        set vis' := Function.update vis node true with hvisUpd
        have hpush : g.dfsPush node vis' rest =
            (List.range g.n).filter (fun v => decide (g.adj node v ≠ 0) && !vis' v)
              ++ rest := dfsPush_go g node vis' (List.range g.n) rest
        rw [hpush]
        set S' := (List.range g.n).filter
          (fun v => decide (g.adj node v ≠ 0) && !vis' v) with hSUpd
        have hS' : ∀ x, x ∈ S' ↔ (x < g.n ∧ g.adj node x ≠ 0 ∧ vis' x = false) := by
          intro x
          rw [hSUpd]
          simp [List.mem_filter, List.mem_range, and_assoc]
        have hvt : ∀ b, vis' b = true ↔ (vis b = true ∨ b = node) := by
          intro b
          rw [hvisUpd]
          by_cases hb : b = node
          · subst hb
            simp [Function.update_same]
          · rw [Function.update_noteq hb]
            simp [hb]
        have hvf : ∀ b, vis' b = false ↔ (vis b = false ∧ b ≠ node) := by
          intro b
          rw [hvisUpd]
          by_cases hb : b = node
          · subst hb
            simp [Function.update_same]
          · rw [Function.update_noteq hb]
            simp [hb]
        have hmem' : ∀ x ∈ S' ++ rest, x < g.n := by
          intro x hx
          rcases List.mem_append.mp hx with hx | hx
          · exact ((hS' x).mp hx).1
          · exact hrest x hx
        have hfuel' : (S' ++ rest).length + (g.n + 1) * countFalse g.n vis' ≤ fuel := by
          have h1 : countFalse g.n vis' + 1 = countFalse g.n vis :=
            countFalse_update hnoden hvisn'
          have h2 : S'.length ≤ g.n := by
            calc S'.length ≤ (List.range g.n).length := List.length_filter_le _ _
            _ = g.n := List.length_range g.n
          have h3 : (g.n + 1) * countFalse g.n vis =
              (g.n + 1) * countFalse g.n vis' + (g.n + 1) := by
            rw [← h1]
            ring
          have h4 : 1 ≤ countFalse g.n vis := countFalse_pos hnoden hvisn'
          simp only [List.length_append, List.length_cons] at hfuel ⊢
          omega
        obtain ⟨ihnd, ihiff⟩ := ih vis' (S' ++ rest) hmem' hfuel'
        have hnotmem : node ∉ Graph.dfsLoop g fuel vis' (S' ++ rest) := by
          rw [ihiff node]
          rintro ⟨hvf', -⟩
          rw [(hvf node).mp hvf' |>.1] at hvisn'
          exact absurd ((hvf node).mp hvf').2 (fun h => h rfl)
        refine ⟨List.nodup_cons.mpr ⟨hnotmem, ihnd⟩, fun v => ?_⟩
        rw [List.mem_cons, ihiff v]
        constructor
        · rintro (hveq | ⟨hv', u, hu, hu', hpath⟩)
          · rw [hveq]
            exact ⟨hvisn', node, List.mem_cons_self _ _, hvisn',
              Relation.ReflTransGen.refl⟩
          · have hvv := (hvf v).mp hv'
            have hpath' : Relation.ReflTransGen
                (fun a b => g.Edge a b ∧ vis b = false) u v :=
              Relation.ReflTransGen.mono
                (fun a b hab => ⟨hab.1, ((hvf b).mp hab.2).1⟩) hpath
            rcases List.mem_append.mp hu with hu | hu
            · have h := (hS' u).mp hu
              have huu := (hvf u).mp h.2.2
              exact ⟨hvv.1, node, List.mem_cons_self _ _, hvisn',
                hpath'.head ⟨⟨hnoden, h.1, h.2.1⟩, huu.1⟩⟩
            · exact ⟨hvv.1, u, List.mem_cons_of_mem _ hu, ((hvf u).mp hu').1, hpath'⟩
        · rintro ⟨hvv, u, hu, hu', hpath⟩
          by_cases hvn : v = node
          · exact Or.inl hvn
          · right
            have hvFalse : vis' v = false := (hvf v).mpr ⟨hvv, hvn⟩
            rcases @rt_last_mark _ (fun w => w = node) (fun _ => inferInstance) _ _ hpath with
              hpath' | ⟨w, hw, hpath'⟩
            · have hpathR' : Relation.ReflTransGen
                  (fun a b => g.Edge a b ∧ vis' b = false) u v :=
                Relation.ReflTransGen.mono
                  (fun a b hab => ⟨hab.1.1, (hvf b).mpr ⟨hab.1.2, hab.2⟩⟩) hpath'
              by_cases hun : u = node
              · subst hun
                rcases Relation.ReflTransGen.cases_head hpathR' with he | ⟨c, hc, hcv⟩
                · exact absurd he.symm hvn
                · have hcS : c ∈ S' := (hS' c).mpr ⟨hc.1.2.1, hc.1.2.2, hc.2⟩
                  exact ⟨hvFalse, c, List.mem_append.mpr (Or.inl hcS), hc.2, hcv⟩
              · exact ⟨hvFalse, u, List.mem_append.mpr (Or.inr (by
                  rcases List.mem_cons.mp hu with rfl | hu
                  · exact absurd rfl hun
                  · exact hu)), (hvf u).mpr ⟨hu', hun⟩, hpathR'⟩
            · rw [hw] at hpath'
              have hpathR' : Relation.ReflTransGen
                  (fun a b => g.Edge a b ∧ vis' b = false) node v :=
                Relation.ReflTransGen.mono
                  (fun a b hab => ⟨hab.1.1, (hvf b).mpr ⟨hab.1.2, hab.2⟩⟩) hpath'
              rcases Relation.ReflTransGen.cases_head hpathR' with he | ⟨c, hc, hcv⟩
              · exact absurd he.symm hvn
              · have hcS : c ∈ S' := (hS' c).mpr ⟨hc.1.2.1, hc.1.2.2, hc.2⟩
                exact ⟨hvFalse, c, List.mem_append.mpr (Or.inl hcS), hc.2, hcv⟩

/-- C4: for every graph and every start index in `[0, vertexCount)`, the
sequence returned by `bfs(start)` and likewise the one returned by
`dfs(start)` contain exactly the vertices reachable from `start` along
nonzero-weight directed edges, each exactly once
(src/data.cpp lines 622-655 and 657-692). -/
theorem C4_bfs_dfs (g : Graph) (start : Int) (h0 : 0 ≤ start)
    (hns : start < (g.n : Int)) :
    ((g.bfs start).Nodup ∧ ∀ v, v ∈ g.bfs start ↔ g.Reaches start.toNat v) ∧
      ((g.dfs start).Nodup ∧ ∀ v, v ∈ g.dfs start ↔ g.Reaches start.toNat v) := by
  have hguard : ¬(start < 0 ∨ (g.n : Int) ≤ start) := by omega
  have hsn : start.toNat < g.n := by omega
  constructor
  · have hb : g.bfs start = Graph.bfsLoop g (g.n + 1)
        (Function.update (fun _ => false) start.toNat true) [start.toNat] := by
      unfold Graph.bfs
      rw [if_neg hguard]
    rw [hb]
    obtain ⟨hnd, hiff⟩ := bfsLoop_spec g (g.n + 1)
      (Function.update (fun _ => false) start.toNat true) [start.toNat]
      (by
        intro x hx
        rw [List.mem_singleton.mp hx]
        exact ⟨hsn, Function.update_same _ _ _⟩)
      (List.nodup_singleton _)
      (by
        have := countFalse_le g.n (Function.update (fun _ => false) start.toNat true)
        simp only [List.length_singleton]
        omega)
    refine ⟨hnd, fun v => ?_⟩
    rw [hiff v]
    constructor
    · rintro (hm | ⟨hvf, u, hu, hpath⟩)
      · rw [List.mem_singleton.mp hm]
        exact Relation.ReflTransGen.refl
      · rw [List.mem_singleton.mp hu] at hpath
        exact Relation.ReflTransGen.mono (fun a b hab => hab.1) hpath
    · intro hre
      by_cases hvs : v = start.toNat
      · subst hvs
        exact Or.inl (List.mem_singleton_self _)
      · right
        refine ⟨by rw [Function.update_noteq hvs], start.toNat, List.mem_singleton_self _, ?_⟩
        rcases rt_avoid_start hre with he | hp
        · exact absurd he hvs
        · exact Relation.ReflTransGen.mono
            (fun a b hab => ⟨hab.1, by rw [Function.update_noteq hab.2]⟩) hp
  · have hd : g.dfs start = Graph.dfsLoop g (g.n * g.n + g.n + 1)
        (fun _ => false) [start.toNat] := by
      unfold Graph.dfs
      rw [if_neg hguard]
    rw [hd]
    obtain ⟨hnd, hiff⟩ := dfsLoop_spec g (g.n * g.n + g.n + 1) (fun _ => false) [start.toNat]
      (by
        intro x hx
        rw [List.mem_singleton.mp hx]
        exact hsn)
      (by
        have h1 : countFalse g.n (fun _ => false) ≤ g.n := countFalse_le _ _
        have h2 : (g.n + 1) * countFalse g.n (fun _ => false) ≤ (g.n + 1) * g.n :=
          Nat.mul_le_mul_left _ h1
        have h3 : (g.n + 1) * g.n = g.n * g.n + g.n := by ring
        simp only [List.length_singleton]
        omega)
    refine ⟨hnd, fun v => ?_⟩
    rw [hiff v]
    constructor
    · rintro ⟨-, u, hu, -, hpath⟩
      rw [List.mem_singleton.mp hu] at hpath
      exact Relation.ReflTransGen.mono (fun a b hab => hab.1) hpath
    · intro hre
      exact ⟨rfl, start.toNat, List.mem_singleton_self _, rfl,
        Relation.ReflTransGen.mono (fun a b hab => ⟨hab, rfl⟩) hre⟩

/-- Witness for C4 at the demo graph with start `0`. -/
theorem C4_bfs_dfs_witness :
    ((0 : Int) ≤ 0 ∧ (0 : Int) < (gDemo.n : Int)) ∧
      (gDemo.bfs 0).Nodup ∧ (gDemo.dfs 0).Nodup := by
  have h := C4_bfs_dfs gDemo 0 (by decide) (by decide)
  exact ⟨⟨by decide, by decide⟩, h.1.1, h.2.1⟩
